import Mathlib

/-!
Verification of the duplicate-image detection subsystem of the ryubee API
(src/main.py). The core under study is the function deduplicate_images
(lines 92-132): it walks the uploaded files in order, decodes each one,
computes a 64-bit perceptual hash, and keeps a file exactly when its hash
is farther than DUP_HASH_THRESHOLD (in Hamming distance) from every hash
kept so far. Files whose bytes do not decode are skipped via continue.

Shallow embedding choices:
- A fingerprint is a natural number; the imagehash subtraction
  h - existing (the Hamming distance between two 64-bit hashes) is
  modelled as the popcount of the bitwise xor.
- An UploadFile carries its filename, the length of its byte buffer, the
  current read position of its underlying file object, and the combined
  outcome of PIL.Image.open plus imagehash.phash on its full content: an
  Option Nat that is none exactly when Image.open raises.
- The loop body of deduplicate_images is written as structural recursion
  over the file list with the kept-hash list as an accumulator; Python
  list appends become cons on the way out of the recursion, preserving
  order. The per-file mutation of the read position (content = await
  f.read() moves the position to the end; f.file.seek(0) moves it back,
  but is skipped by the continue on decode failure) is modelled in
  processPos.
-/

/-- An uploaded file: filename, byte-buffer length, decode outcome
(none when PIL.Image.open raises, some h when the phash of the decoded
image is h), and the current read position of the underlying file. -/
structure UploadFile where
  filename : String
  size : Nat
  decoded : Option Nat
  pos : Nat
  deriving DecidableEq

/-- Fuelled popcount; fuel n is enough for any value at most n. -/
def popCountFuel : Nat → Nat → Nat
  | 0, _ => 0
  | fuel + 1, n => if n = 0 then 0 else n % 2 + popCountFuel fuel (n / 2)

/-- Number of set bits of a natural number. -/
def popCount (n : Nat) : Nat := popCountFuel n n

/-- Hamming distance between two fingerprints, the value of the
imagehash subtraction h - existing in the source. -/
def hamming (a b : Nat) : Nat := popCount (a ^^^ b)

/-- The inner for-loop of deduplicate_images (lines 117-122): scan the
kept hashes and report whether any is within the threshold T of h. -/
def isDup (T : Nat) (hashes : List Nat) (h : Nat) : Bool :=
  hashes.any fun existing => hamming h existing ≤ T

/-- The main loop of deduplicate_images (lines 103-130), with the kept
hashes as accumulator. Returns the final kept hashes, the kept files
(unique_files) and the kept filenames (kept_names), in input order. -/
def dedupCore (T : Nat) (hashes : List Nat) :
    List UploadFile → List Nat × List UploadFile × List String
  | [] => (hashes, [], [])
  | f :: fs =>
    match f.decoded with
    | none => dedupCore T hashes fs
    | some h =>
      if isDup T hashes h then
        dedupCore T hashes fs
      else
        let r := dedupCore T (hashes ++ [h]) fs
        (r.1, f :: r.2.1, f.filename :: r.2.2)

/-- deduplicate_images (lines 92-132): returns
(unique_files, kept_names, all_names). -/
def deduplicate_images (T : Nat) (files : List UploadFile) :
    List UploadFile × List String × List String :=
  let r := dedupCore T [] files
  (r.2.1, r.2.2, files.map UploadFile.filename)

/-- Per-asset outcome of one loop iteration, as described by the spec:
kept, dropped, or unreadable (decode failure). -/
inductive Decision
  | kept
  | dropped
  | unreadable
  deriving DecidableEq

/-- The classification each iteration of the loop makes for each file,
in input order, mirroring the control flow of dedupCore. -/
def dedupDecisions (T : Nat) (hashes : List Nat) :
    List UploadFile → List Decision
  | [] => []
  | f :: fs =>
    match f.decoded with
    | none => Decision.unreadable :: dedupDecisions T hashes fs
    | some h =>
      if isDup T hashes h then
        Decision.dropped :: dedupDecisions T hashes fs
      else
        Decision.kept :: dedupDecisions T (hashes ++ [h]) fs

/-- The Partitioner restricted to bare fingerprints: the hash-level
content of the loop, used to state re-partitioning claims. -/
def partitionHashes (T : Nat) (kept : List Nat) : List Nat → List Nat
  | [] => kept
  | h :: hs =>
    if isDup T kept h then partitionHashes T kept hs
    else partitionHashes T (kept ++ [h]) hs

/-- Replace the read position of a file. -/
def setPos (f : UploadFile) (p : Nat) : UploadFile :=
  ⟨f.filename, f.size, f.decoded, p⟩

/-- The effect of one loop iteration on the file object itself:
await f.read() (line 105) consumes the buffer, moving the position to
the end; f.file.seek(0) (line 130) rewinds it, but the continue on
decode failure (line 111) jumps past the seek. -/
def processPos (f : UploadFile) : UploadFile :=
  let afterRead := setPos f f.size
  match f.decoded with
  | none => afterRead
  | some _ => setPos afterRead 0

/-- Final state of every file object after the loop has run. -/
def dedupFinalFiles (files : List UploadFile) : List UploadFile :=
  files.map processPos

/-- The data of a file that the dedup decisions can depend on. -/
def fileKey (f : UploadFile) : String × Option Nat := (f.filename, f.decoded)

/-- Concrete decodable file with fingerprint 3, for instantiations. -/
def wfX : UploadFile := ⟨"x.jpg", 2, some 3, 0⟩

/-- Concrete file with fingerprint 0. -/
def cexA : UploadFile := ⟨"a.jpg", 4, some 0, 0⟩

/-- Concrete file with fingerprint 63, at Hamming distance 6 from cexA. -/
def cexB : UploadFile := ⟨"b.jpg", 4, some 63, 0⟩

/-- Concrete file with fingerprint 511, at Hamming distance 9 from cexA
and 3 from cexB. -/
def cexC : UploadFile := ⟨"c.jpg", 4, some 511, 0⟩

/-- Concrete file named a.jpg with fingerprint 3. -/
def wdA : UploadFile := ⟨"a.jpg", 5, some 3, 0⟩

/-- Same name and fingerprint as wdA but different size and position. -/
def wdA2 : UploadFile := ⟨"a.jpg", 9, some 3, 4⟩

/-- Concrete file with fingerprint 9. -/
def wdB : UploadFile := ⟨"b.jpg", 1, some 9, 0⟩

/-- Concrete file with fingerprint 127, at Hamming distance 5 from wfX
(fingerprint 3) and 7 from cexA (fingerprint 0). -/
def cexD : UploadFile := ⟨"d.jpg", 4, some 127, 0⟩

theorem popCountFuel_zero (fuel : Nat) : popCountFuel fuel 0 = 0 := by
  cases fuel <;> simp [popCountFuel]

theorem hamming_comm (a b : Nat) : hamming a b = hamming b a := by
  unfold hamming
  rw [Nat.xor_comm]

theorem hamming_self (a : Nat) : hamming a a = 0 := by
  unfold hamming
  rw [Nat.xor_self]
  rfl

theorem isDup_iff (T : Nat) (hashes : List Nat) (h : Nat) :
    isDup T hashes h = true ↔ ∃ g ∈ hashes, hamming h g ≤ T := by
  simp [isDup, List.any_eq_true]

theorem isDup_eq_false (T : Nat) (hashes : List Nat) (h : Nat) :
    isDup T hashes h = false ↔ ∀ g ∈ hashes, T < hamming h g := by
  simp [isDup, List.any_eq_false, Nat.lt_iff_add_one_le, Nat.not_le]

theorem pairwise_concat_of_not_dup (T : Nat) (hashes : List Nat) (h : Nat)
    (hfar : hashes.Pairwise fun a b => T < hamming a b)
    (hd : isDup T hashes h = false) :
    (hashes ++ [h]).Pairwise fun a b => T < hamming a b := by
  rw [List.pairwise_append]
  refine ⟨hfar, List.pairwise_singleton _ _, ?_⟩
  intro a ha b hb
  rw [List.mem_singleton] at hb
  subst hb
  rw [hamming_comm]
  exact (isDup_eq_false T hashes b).1 hd a ha

theorem dedupCore_hashes_pairwise (T : Nat) (files : List UploadFile)
    (hashes : List Nat)
    (hfar : hashes.Pairwise fun a b => T < hamming a b) :
    ((dedupCore T hashes files).1).Pairwise fun a b => T < hamming a b := by
  induction files generalizing hashes with
  | nil => simpa [dedupCore] using hfar
  | cons f fs ih =>
    cases hf : f.decoded with
    | none => simpa [dedupCore, hf] using ih hashes hfar
    | some h =>
      cases hd : isDup T hashes h with
      | true => simpa [dedupCore, hf, hd] using ih hashes hfar
      | false =>
        simpa [dedupCore, hf, hd] using
          ih (hashes ++ [h]) (pairwise_concat_of_not_dup T hashes h hfar hd)

theorem dedupCore_keptNames_sublist (T : Nat) (files : List UploadFile)
    (hashes : List Nat) :
    ((dedupCore T hashes files).2.2).Sublist (files.map UploadFile.filename) := by
  induction files generalizing hashes with
  | nil => simp [dedupCore]
  | cons f fs ih =>
    cases hf : f.decoded with
    | none =>
      simp only [dedupCore, hf, List.map_cons]
      exact (ih hashes).cons _
    | some h =>
      cases hd : isDup T hashes h with
      | true =>
        simp only [dedupCore, hf, hd, if_true, List.map_cons]
        exact (ih hashes).cons _
      | false =>
        simp only [dedupCore, hf, hd, if_false, List.map_cons]
        exact (ih (hashes ++ [h])).cons₂ _

theorem dedupCore_keptNames_eq_map (T : Nat) (files : List UploadFile)
    (hashes : List Nat) :
    (dedupCore T hashes files).2.2
      = ((dedupCore T hashes files).2.1).map UploadFile.filename := by
  induction files generalizing hashes with
  | nil => simp [dedupCore]
  | cons f fs ih =>
    cases hf : f.decoded with
    | none => simp [dedupCore, hf, ih]
    | some h =>
      cases hd : isDup T hashes h <;> simp [dedupCore, hf, hd, ih]

theorem dedupCore_hashes_length (T : Nat) (files : List UploadFile)
    (hashes : List Nat) :
    ((dedupCore T hashes files).1).length
      = hashes.length + ((dedupCore T hashes files).2.1).length := by
  induction files generalizing hashes with
  | nil => simp [dedupCore]
  | cons f fs ih =>
    cases hf : f.decoded with
    | none => simp [dedupCore, hf, ih]
    | some h =>
      cases hd : isDup T hashes h with
      | true => simp [dedupCore, hf, hd, ih]
      | false =>
        have := ih (hashes ++ [h])
        simp only [dedupCore, hf, hd, if_false]
        simp only [List.length_append, List.length_singleton] at this
        simp [this]
        omega

theorem dedupCore_filter_decodable (T : Nat) (files : List UploadFile)
    (hashes : List Nat) :
    dedupCore T hashes files
      = dedupCore T hashes (files.filter fun f => f.decoded.isSome) := by
  induction files generalizing hashes with
  | nil => simp [dedupCore]
  | cons f fs ih =>
    cases hf : f.decoded with
    | none => simp [dedupCore, hf, List.filter_cons, ih]
    | some h =>
      cases hd : isDup T hashes h <;>
        simp [dedupCore, hf, List.filter_cons, hd, ih]

theorem dedupCore_kept_decodable (T : Nat) (files : List UploadFile)
    (hashes : List Nat) :
    ((dedupCore T hashes files).2.1).all (fun f => f.decoded.isSome) = true := by
  induction files generalizing hashes with
  | nil => simp [dedupCore]
  | cons f fs ih =>
    cases hf : f.decoded with
    | none => simp [dedupCore, hf, ih]
    | some h =>
      cases hd : isDup T hashes h <;> simp [dedupCore, hf, hd, ih]

theorem dedupCore_kept_head (T : Nat) (files : List UploadFile) :
    ((dedupCore T [] files).2.1).head?
      = (files.filter fun f => f.decoded.isSome).head? := by
  induction files with
  | nil => simp [dedupCore]
  | cons f fs ih =>
    cases hf : f.decoded with
    | none => simp [dedupCore, hf, List.filter_cons, ih]
    | some h =>
      have hd : isDup T [] h = false := by simp [isDup]
      simp [dedupCore, hf, hd, List.filter_cons]

theorem dedupDecisions_length (T : Nat) (files : List UploadFile)
    (hashes : List Nat) :
    (dedupDecisions T hashes files).length = files.length := by
  induction files generalizing hashes with
  | nil => simp [dedupDecisions]
  | cons f fs ih =>
    cases hf : f.decoded with
    | none => simp [dedupDecisions, hf, ih]
    | some h =>
      cases hd : isDup T hashes h <;> simp [dedupDecisions, hf, hd, ih]

theorem dedupCore_keptNames_length_eq_count (T : Nat) (files : List UploadFile)
    (hashes : List Nat) :
    ((dedupCore T hashes files).2.2).length
      = (dedupDecisions T hashes files).count Decision.kept := by
  induction files generalizing hashes with
  | nil => simp [dedupCore, dedupDecisions]
  | cons f fs ih =>
    cases hf : f.decoded with
    | none => simp [dedupCore, dedupDecisions, hf, List.count_cons, ih]
    | some h =>
      cases hd : isDup T hashes h <;>
        simp [dedupCore, dedupDecisions, hf, hd, List.count_cons, ih]

theorem decision_count_partition (ds : List Decision) :
    ds.count Decision.kept + ds.count Decision.dropped
      + ds.count Decision.unreadable = ds.length := by
  induction ds with
  | nil => simp
  | cons d ds ih =>
    cases d <;> simp [List.count_cons] <;> omega

theorem dedupCore_fst_eq_partition (T : Nat) (files : List UploadFile)
    (hashes : List Nat) :
    (dedupCore T hashes files).1
      = partitionHashes T hashes (files.filterMap UploadFile.decoded) := by
  induction files generalizing hashes with
  | nil => simp [dedupCore, partitionHashes]
  | cons f fs ih =>
    cases hf : f.decoded with
    | none => simp [dedupCore, hf, List.filterMap_cons, ih]
    | some h =>
      cases hd : isDup T hashes h <;>
        simp [dedupCore, hf, List.filterMap_cons, partitionHashes, hd, ih]

theorem partition_pairwise_id (T : Nat) (l kept : List Nat)
    (hfar : (kept ++ l).Pairwise fun a b => T < hamming a b) :
    partitionHashes T kept l = kept ++ l := by
  induction l generalizing kept with
  | nil => simp [partitionHashes]
  | cons h hs ih =>
    have hd : isDup T kept h = false := by
      rw [isDup_eq_false]
      intro g hg
      rw [hamming_comm]
      rw [List.pairwise_append] at hfar
      exact hfar.2.2 g hg h (List.mem_cons_self h hs)
    have hfar' : ((kept ++ [h]) ++ hs).Pairwise fun a b => T < hamming a b := by
      simpa [List.append_assoc] using hfar
    simp only [partitionHashes, hd, if_false]
    rw [ih (kept ++ [h]) hfar']
    simp

theorem dedup_key_congr (T : Nat) (files1 files2 : List UploadFile)
    (hashes : List Nat)
    (hk : files1.map fileKey = files2.map fileKey) :
    dedupDecisions T hashes files1 = dedupDecisions T hashes files2 ∧
    (dedupCore T hashes files1).2.2 = (dedupCore T hashes files2).2.2 ∧
    (dedupCore T hashes files1).1 = (dedupCore T hashes files2).1 := by
  induction files1 generalizing files2 hashes with
  | nil =>
    cases files2 with
    | nil => simp
    | cons g gs => simp [fileKey] at hk
  | cons f fs ih =>
    cases files2 with
    | nil => simp [fileKey] at hk
    | cons g gs =>
      simp only [List.map_cons, List.cons.injEq] at hk
      obtain ⟨hkey, hrest⟩ := hk
      have hname : f.filename = g.filename := congrArg Prod.fst hkey
      have hdecd : f.decoded = g.decoded := congrArg Prod.snd hkey
      cases hf : f.decoded with
      | none =>
        have hg : g.decoded = none := by rw [← hdecd, hf]
        obtain ⟨d1, d2, d3⟩ := ih gs hashes hrest
        simp [dedupDecisions, dedupCore, hf, hg, d1, d2, d3]
      | some h =>
        have hg : g.decoded = some h := by rw [← hdecd, hf]
        cases hd : isDup T hashes h with
        | true =>
          obtain ⟨d1, d2, d3⟩ := ih gs hashes hrest
          simp [dedupDecisions, dedupCore, hf, hg, hd, d1, d2, d3]
        | false =>
          obtain ⟨d1, d2, d3⟩ := ih gs (hashes ++ [h]) hrest
          simp [dedupDecisions, dedupCore, hf, hg, hd, d1, d2, d3, hname]

/-- C1: the kept-fingerprint list is pairwise far apart, as an invariant of
the partitioner: starting from any kept list whose members are pairwise more
than T apart in Hamming distance (so in particular from the empty list, and
from the state after any prefix of the run), the kept list after processing
the remaining batch is still pairwise more than T apart. -/
theorem kept_fingerprints_pairwise_far (T : Nat) (files : List UploadFile)
    (hashes : List Nat)
    (hfar : hashes.Pairwise fun a b => T < hamming a b) :
    ((dedupCore T hashes files).1).Pairwise fun a b => T < hamming a b :=
  dedupCore_hashes_pairwise T files hashes hfar

/-- Witness for C1 at a concrete three-file batch and T = 5. -/
theorem kept_fingerprints_pairwise_far_witness :
    (([] : List Nat).Pairwise fun a b => 5 < hamming a b) ∧
    ((dedupCore 5 [] [cexA, cexB, cexC]).1).Pairwise
      fun a b => 5 < hamming a b :=
  ⟨List.Pairwise.nil,
   kept_fingerprints_pairwise_far 5 [cexA, cexB, cexC] [] List.Pairwise.nil⟩

/-- C3: kept_names is a subsequence of all_names, preserving relative
input order, for every batch (undecodable files included). -/
theorem kept_names_sublist_all_names (T : Nat) (files : List UploadFile) :
    ((deduplicate_images T files).2.1).Sublist
      ((deduplicate_images T files).2.2) := by
  simpa [deduplicate_images] using dedupCore_keptNames_sublist T files []

/-- C8: re-running the Partitioner on exactly the kept fingerprints, with
the same threshold, classifies every one of them as kept again: the re-run
returns the kept list unchanged. -/
theorem repartition_kept_id (T : Nat) (files : List UploadFile) :
    partitionHashes T [] ((dedupCore T [] files).1)
      = (dedupCore T [] files).1 := by
  have hfar := dedupCore_hashes_pairwise T files [] List.Pairwise.nil
  simpa using
    partition_pairwise_id T ((dedupCore T [] files).1) [] (by simpa using hfar)

/-- C10: the returned values are mutually consistent: kept_names is exactly
the filenames of unique_files (so kept_names, unique_files and the internal
kept-hash list all have the same length), and the first file of the batch
that decodes successfully is always kept, heading unique_files. -/
theorem dedup_results_consistent (T : Nat) (files : List UploadFile) :
    (deduplicate_images T files).2.1
      = ((deduplicate_images T files).1).map UploadFile.filename ∧
    ((dedupCore T [] files).1).length
      = ((deduplicate_images T files).1).length ∧
    ((deduplicate_images T files).1).head?
      = (files.filter fun f => f.decoded.isSome).head? := by
  refine ⟨?_, ?_, ?_⟩
  · simpa [deduplicate_images] using dedupCore_keptNames_eq_map T files []
  · simpa [deduplicate_images] using dedupCore_hashes_length T files []
  · simpa [deduplicate_images] using dedupCore_kept_head T files

/-- C5: undecodable files are skipped and isolated: the run computes
exactly the same kept hashes, kept files and kept names as the run on just
the decodable files (so an unreadable file contributes no fingerprint and
is never compared to anything, while the remaining batch is still
processed), every kept file decodes, and all_names still lists every
uploaded file. -/
theorem unreadable_isolated (T : Nat) (files : List UploadFile)
    (hashes : List Nat) :
    dedupCore T hashes files
      = dedupCore T hashes (files.filter fun f => f.decoded.isSome) ∧
    ((dedupCore T hashes files).2.1).all (fun f => f.decoded.isSome) = true ∧
    (deduplicate_images T files).2.2 = files.map UploadFile.filename :=
  ⟨dedupCore_filter_decodable T files hashes,
   dedupCore_kept_decodable T files hashes,
   rfl⟩

/-- C4: count consistency: after_dedup_count (the number of unique_files)
equals the number of kept_names and is at most received_count (the number
of all_names), which equals the number of uploaded files; every file is
accounted for in exactly one of the classes kept, dropped, unreadable; and
the empty batch yields empty lists, hence both counts 0. -/
theorem dedup_counts_consistent (T : Nat) (files : List UploadFile) :
    ((deduplicate_images T files).1).length
      = ((deduplicate_images T files).2.1).length ∧
    ((deduplicate_images T files).2.1).length
      ≤ ((deduplicate_images T files).2.2).length ∧
    ((deduplicate_images T files).2.2).length = files.length ∧
    ((deduplicate_images T files).2.1).length
        + (dedupDecisions T [] files).count Decision.dropped
        + (dedupDecisions T [] files).count Decision.unreadable
      = ((deduplicate_images T files).2.2).length ∧
    deduplicate_images T ([] : List UploadFile) = ([], [], []) := by
  refine ⟨?_, ?_, ?_, ?_, ?_⟩
  · have hmap := dedupCore_keptNames_eq_map T files []
    simp [deduplicate_images, hmap]
  · simpa [deduplicate_images] using
      (dedupCore_keptNames_sublist T files []).length_le
  · simp [deduplicate_images]
  · have h1 := dedupCore_keptNames_length_eq_count T files []
    have h2 := decision_count_partition (dedupDecisions T [] files)
    have h3 := dedupDecisions_length T files []
    simp only [deduplicate_images, List.length_map]
    omega
  · simp [deduplicate_images, dedupCore]

/-- C2: single-pass classification in input order: a decoded file is
dropped exactly when some previously kept fingerprint is within Hamming
distance T of its fingerprint, with the comparison inclusive (distance
equal to T counts as a duplicate); otherwise the file is kept and its
fingerprint appended to the kept list, which the rest of the run then
uses. -/
theorem dropped_iff_within_threshold (T : Nat) (hashes : List Nat)
    (f : UploadFile) (fs : List UploadFile) (h : Nat)
    (hdec : f.decoded = some h) :
    (dedupDecisions T hashes (f :: fs)
      = if ∃ g ∈ hashes, hamming h g ≤ T then
          Decision.dropped :: dedupDecisions T hashes fs
        else
          Decision.kept :: dedupDecisions T (hashes ++ [h]) fs) ∧
    (dedupCore T hashes (f :: fs)
      = if ∃ g ∈ hashes, hamming h g ≤ T then
          dedupCore T hashes fs
        else
          ((dedupCore T (hashes ++ [h]) fs).1,
           f :: (dedupCore T (hashes ++ [h]) fs).2.1,
           f.filename :: (dedupCore T (hashes ++ [h]) fs).2.2)) := by
  by_cases hex : ∃ g ∈ hashes, hamming h g ≤ T
  · have hd : isDup T hashes h = true := (isDup_iff T hashes h).2 hex
    constructor <;> simp [dedupDecisions, dedupCore, hdec, hd, hex]
  · have hd : isDup T hashes h = false := by
      cases hv : isDup T hashes h with
      | false => rfl
      | true => exact absurd ((isDup_iff T hashes h).1 hv) hex
    constructor <;> simp [dedupDecisions, dedupCore, hdec, hd, hex]

/-- Witness for C2: one file with fingerprint 3 against kept list with
fingerprint 0, threshold 5; the distance is 2, so it is dropped. -/
theorem dropped_iff_within_threshold_witness :
    wfX.decoded = some 3 ∧
    ((dedupDecisions 5 [0] [wfX]
      = if ∃ g ∈ [0], hamming 3 g ≤ 5 then
          Decision.dropped :: dedupDecisions 5 [0] []
        else
          Decision.kept :: dedupDecisions 5 ([0] ++ [3]) []) ∧
     (dedupCore 5 [0] [wfX]
      = if ∃ g ∈ [0], hamming 3 g ≤ 5 then
          dedupCore 5 [0] []
        else
          ((dedupCore 5 ([0] ++ [3]) []).1,
           wfX :: (dedupCore 5 ([0] ++ [3]) []).2.1,
           wfX.filename :: (dedupCore 5 ([0] ++ [3]) []).2.2))) :=
  ⟨rfl, dropped_iff_within_threshold 5 [0] wfX [] 3 rfl⟩

/-- C7 counterexample: threshold monotonicity fails for the whole run.
With fingerprints 0, 63, 511 (pairwise Hamming distances 6, 9, 3), the
third file is dropped at threshold 5 but kept at the larger threshold 7:
raising T drops the second file, removing the fingerprint that the third
file was close to. -/
theorem threshold_not_monotone :
    (5 : Nat) ≤ 7 ∧
    (dedupDecisions 5 [] [cexA, cexB, cexC]).get? 2
      = some Decision.dropped ∧
    ¬ (dedupDecisions 7 [] [cexA, cexB, cexC]).get? 2
      = some Decision.dropped ∧
    dedupDecisions 5 [] [cexA, cexB, cexC]
      = [Decision.kept, Decision.kept, Decision.dropped] ∧
    dedupDecisions 7 [] [cexA, cexB, cexC]
      = [Decision.kept, Decision.dropped, Decision.kept] := by
  decide

/-- C7 (amended): the per-file drop test is monotone in the threshold when
the kept list is held fixed: a file judged a duplicate of a given kept
list at threshold T1 is judged a duplicate of the same kept list at any
threshold T2 at least T1. Monotonicity of the whole run fails, because the
kept list itself depends on the threshold. -/
theorem isDup_mono (T1 T2 : Nat) (hashes : List Nat) (h : Nat)
    (hle : T1 ≤ T2) (hdup : isDup T1 hashes h = true) :
    isDup T2 hashes h = true := by
  rcases (isDup_iff T1 hashes h).1 hdup with ⟨g, hg, hgle⟩
  exact (isDup_iff T2 hashes h).2 ⟨g, hg, hgle.trans hle⟩

/-- Witness for the amended C7 at thresholds 5 and 7. -/
theorem isDup_mono_witness :
    ((5 : Nat) ≤ 7 ∧ isDup 5 [0] 3 = true) ∧ isDup 7 [0] 3 = true :=
  ⟨⟨by decide, by decide⟩, isDup_mono 5 7 [0] 3 (by decide) (by decide)⟩

theorem dedupCore_kept_nil_of_all_near (T : Nat) (files : List UploadFile)
    (hashes : List Nat)
    (hnear : ∀ g ∈ files.filterMap UploadFile.decoded,
      ∃ k ∈ hashes, hamming k g ≤ T) :
    (dedupCore T hashes files).2.1 = [] := by
  induction files with
  | nil => simp [dedupCore]
  | cons f fs ih =>
    cases hf : f.decoded with
    | none =>
      have hnear' : ∀ g ∈ fs.filterMap UploadFile.decoded,
          ∃ k ∈ hashes, hamming k g ≤ T := by
        intro g hg
        exact hnear g (by simpa [List.filterMap_cons, hf] using hg)
      simpa [dedupCore, hf] using ih hnear'
    | some h =>
      have hcons : (f :: fs).filterMap UploadFile.decoded
          = h :: fs.filterMap UploadFile.decoded := by
        simp [List.filterMap_cons, hf]
      obtain ⟨k, hk, hkle⟩ := hnear h (by rw [hcons]; exact List.mem_cons_self h _)
      have hd : isDup T hashes h = true :=
        (isDup_iff T hashes h).2 ⟨k, hk, by rwa [hamming_comm]⟩
      have hnear' : ∀ g ∈ fs.filterMap UploadFile.decoded,
          ∃ k ∈ hashes, hamming k g ≤ T := by
        intro g hg
        exact hnear g (by rw [hcons]; exact List.mem_cons_of_mem h hg)
      simpa [dedupCore, hf, hd] using ih hnear'

theorem first_of_near_batch_kept (T : Nat) (files : List UploadFile)
    (hnear : (files.filterMap UploadFile.decoded).Pairwise
      fun a b => hamming a b ≤ T) :
    (dedupCore T [] files).2.1
      = ((files.filter fun f => f.decoded.isSome).head?).toList := by
  induction files with
  | nil => simp [dedupCore]
  | cons f fs ih =>
    cases hf : f.decoded with
    | none =>
      have hnear' : (fs.filterMap UploadFile.decoded).Pairwise
          fun a b => hamming a b ≤ T := by
        simpa [List.filterMap_cons, hf] using hnear
      simp [dedupCore, hf, List.filter_cons, ih hnear']
    | some h0 =>
      have hd : isDup T [] h0 = false := by simp [isDup]
      have hcons : (f :: fs).filterMap UploadFile.decoded
          = h0 :: fs.filterMap UploadFile.decoded := by
        simp [List.filterMap_cons, hf]
      rw [hcons] at hnear
      have hp : ∀ g ∈ fs.filterMap UploadFile.decoded, hamming h0 g ≤ T :=
        (List.pairwise_cons.1 hnear).1
      have hz : (dedupCore T [h0] fs).2.1 = [] := by
        refine dedupCore_kept_nil_of_all_near T fs [h0] ?_
        intro g hg
        exact ⟨h0, List.mem_singleton_self h0, hp g hg⟩
      simp [dedupCore, hf, hd, List.filter_cons, hz]

/-- C9 counterexample: the first member of a mutually near-duplicate set
is not always the one kept. With fingerprints 0, 3, 127 at threshold 5,
the files with fingerprints 3 and 127 are mutual near-duplicates (their
distance is 5), yet the first of them is dropped (it is within distance 2
of the earlier kept fingerprint 0) and the second is kept (distance 7
from 0): the kept representative of the pair is its second member. -/
theorem first_occurrence_not_kept :
    hamming 3 127 ≤ 5 ∧
    dedupDecisions 5 [] [cexA, wfX, cexD]
      = [Decision.kept, Decision.dropped, Decision.kept] ∧
    (deduplicate_images 5 [cexA, wfX, cexD]).2.1 = ["a.jpg", "d.jpg"] := by
  decide

/-- C9 (amended): determinism and self-identity hold as claimed: the
partition depends only on the ordered filenames and fingerprints, so two
batches that agree on those (in particular two runs on the same batch)
produce identical kept_names and all_names; and a decoded file whose
fingerprint already occurs in the kept list is dropped for every
threshold, because its distance to that fingerprint is 0. The
first-occurrence rule holds in the weaker form the counterexample forces:
when all decodable files of a batch are mutually near-duplicates
(fingerprints pairwise within T), the first file that decodes is the one
kept, and it is the only one. -/
theorem dedup_deterministic_and_self_dup (T : Nat)
    (files1 files2 files3 : List UploadFile) (hashes : List Nat)
    (f : UploadFile) (fs : List UploadFile) (h : Nat)
    (hk : files1.map fileKey = files2.map fileKey)
    (hmem : h ∈ hashes) (hdec : f.decoded = some h)
    (hnear : (files3.filterMap UploadFile.decoded).Pairwise
      fun a b => hamming a b ≤ T) :
    (deduplicate_images T files1).2 = (deduplicate_images T files2).2 ∧
    dedupDecisions T hashes (f :: fs)
      = Decision.dropped :: dedupDecisions T hashes fs ∧
    (dedupCore T [] files3).2.1
      = ((files3.filter fun f => f.decoded.isSome).head?).toList := by
  refine ⟨?_, ?_, first_of_near_batch_kept T files3 hnear⟩
  · obtain ⟨-, d2, -⟩ := dedup_key_congr T files1 files2 [] hk
    have hnames : files1.map UploadFile.filename
        = files2.map UploadFile.filename := by
      have hfst := congrArg (List.map Prod.fst) hk
      simpa [List.map_map, Function.comp_def, fileKey] using hfst
    simp [deduplicate_images, d2, hnames]
  · have hd : isDup T hashes h = true :=
      (isDup_iff T hashes h).2
        ⟨h, hmem, by rw [hamming_self]; exact Nat.zero_le T⟩
    simp [dedupDecisions, hdec, hd]

/-- Witness for C9: two one-file batches agreeing on filename and
fingerprint but not on size or position; a file whose fingerprint 9 is
already kept; and a mutually near batch (fingerprints 0 and 3, distance
2 within threshold 5) whose first file is the one kept. -/
theorem dedup_deterministic_and_self_dup_witness :
    ([wdA].map fileKey = [wdA2].map fileKey ∧ 9 ∈ [9]
      ∧ wdB.decoded = some 9
      ∧ (([cexA, wfX].filterMap UploadFile.decoded).Pairwise
          fun a b => hamming a b ≤ 5)) ∧
    ((deduplicate_images 5 [wdA]).2 = (deduplicate_images 5 [wdA2]).2 ∧
     dedupDecisions 5 [9] (wdB :: [])
       = Decision.dropped :: dedupDecisions 5 [9] [] ∧
     (dedupCore 5 [] [cexA, wfX]).2.1
       = (([cexA, wfX].filter fun f => f.decoded.isSome).head?).toList) :=
  ⟨⟨rfl, by decide, rfl, by decide⟩,
   dedup_deterministic_and_self_dup 5 [wdA] [wdA2] [cexA, wfX] [9] wdB [] 9
     rfl (by decide) rfl (by decide)⟩

/-- C6 evaluation at the failing input: a file whose 3 bytes do not decode
is read to the end (position 3) and never rewound, because the continue on
decode failure skips the seek to 0; a decodable file is rewound to 0. The
claim that every file ends re-readable from position 0 therefore fails on
the undecodable file. -/
theorem decode_failure_not_rewound :
    (processPos ⟨"bad.jpg", 3, none, 0⟩).pos = 3 ∧
    ¬ (processPos ⟨"bad.jpg", 3, none, 0⟩).pos = 0 ∧
    (processPos ⟨"ok.jpg", 3, some 0, 0⟩).pos = 0 ∧
    dedupFinalFiles [⟨"bad.jpg", 3, none, 0⟩, ⟨"ok.jpg", 3, some 0, 0⟩]
      = [⟨"bad.jpg", 3, none, 3⟩, ⟨"ok.jpg", 3, some 0, 0⟩] := by
  decide
